import Mathlib

/-!
Shallow embedding of the pngme chunk codec (src/chunk_type.rs, src/chunk.rs).

Bytes are modelled as `Nat` values (< 256 where it matters), byte buffers as
`List Nat`, and the Rust `u32` fields as `Nat` with explicit `% 2^32` where the
Rust code wraps (`as u32`).  Fallible Rust operations (`TryFrom`, `FromStr`)
become functions into `Except`.
-/

set_option maxRecDepth 100000

deriving instance DecidableEq for Except

namespace Pngme

/-- `u8::is_ascii_uppercase` / `char::is_ascii_uppercase`: `'A'..='Z'`. -/
def isAsciiUppercase (x : Nat) : Bool := 0x41 ≤ x && x ≤ 0x5A

/-- `u8::is_ascii_lowercase` / `char::is_ascii_lowercase`: `'a'..='z'`. -/
def isAsciiLowercase (x : Nat) : Bool := 0x61 ≤ x && x ≤ 0x7A

/-- `u8::is_ascii_alphabetic` / `char::is_ascii_alphabetic`:
`'A'..='Z' | 'a'..='z'`. -/
def isAsciiAlphabetic (x : Nat) : Bool := isAsciiUppercase x || isAsciiLowercase x

/-- `ChunkTypeError` from src/chunk_type.rs.  `InvalidStringLength` carries the
actual length found (the `{0}` in its error message). -/
inductive ChunkTypeError where
  | NonAlphabeticCharacters : ChunkTypeError
  | InvalidStringLength : Nat → ChunkTypeError
deriving DecidableEq, Repr

/-- `ChunkType` from src/chunk_type.rs: a 4-byte code (`[u8; 4]`, modelled as a
list of the 4 byte values). -/
structure ChunkType where
  code : List Nat
deriving DecidableEq, Repr

namespace ChunkType

/-- `ChunkType::bytes`. -/
def bytes (t : ChunkType) : List Nat := t.code

/-- `ChunkType::is_critical`: `self.code[0].is_ascii_uppercase()`. -/
def is_critical (t : ChunkType) : Bool := isAsciiUppercase (t.code.getD 0 0)

/-- `ChunkType::is_public`: `self.code[1].is_ascii_uppercase()`. -/
def is_public (t : ChunkType) : Bool := isAsciiUppercase (t.code.getD 1 0)

/-- `ChunkType::is_reserved_bit_valid`: `self.code[2].is_ascii_uppercase()`. -/
def is_reserved_bit_valid (t : ChunkType) : Bool := isAsciiUppercase (t.code.getD 2 0)

/-- `ChunkType::is_safe_to_copy`: `self.code[3].is_ascii_lowercase()`. -/
def is_safe_to_copy (t : ChunkType) : Bool := isAsciiLowercase (t.code.getD 3 0)

/-- `ChunkType::is_valid`: `self.is_reserved_bit_valid()`. -/
def is_valid (t : ChunkType) : Bool := t.is_reserved_bit_valid

/-- `impl TryFrom<[u8; 4]> for ChunkType`: fail with `NonAlphabeticCharacters`
if any byte is not ASCII alphabetic, else store the 4 bytes. -/
def tryFromBytes (value : List Nat) : Except ChunkTypeError ChunkType :=
  if value.any (fun x => ! isAsciiAlphabetic x) then
    .error .NonAlphabeticCharacters
  else
    .ok ⟨value⟩

/-- Total UTF-8 byte length of a character (`char::len_utf8`), used to model
Rust's `str::len` (a byte count) on a string given as its character scalars. -/
def utf8CharLen (c : Nat) : Nat :=
  if c < 0x80 then 1 else if c < 0x800 then 2 else if c < 0x10000 then 3 else 4

/-- `str::len` of a string given as the list of its character scalar values:
the total UTF-8 byte count. -/
def strByteLen (s : List Nat) : Nat := (s.map utf8CharLen).sum

/-- `impl FromStr for ChunkType` (src/chunk_type.rs).  The input string is
modelled as the list of its characters' scalar values.  First checks every
character is ASCII alphabetic, then that `s.len()` (the byte length) is 4;
on success the code is the string's 4 bytes, which for the all-ASCII strings
that get here are exactly the 4 character values. -/
def fromStr (s : List Nat) : Except ChunkTypeError ChunkType :=
  if s.any (fun x => ! isAsciiAlphabetic x) then
    .error .NonAlphabeticCharacters
  else if strByteLen s ≠ 4 then
    .error (.InvalidStringLength (strByteLen s))
  else
    .ok ⟨s⟩

end ChunkType

/-- The kind of `std::io::Error` raised inside `Chunk::try_from`:
`Read::read_exact` on a byte slice fails only with `UnexpectedEof`
("failed to fill whole buffer"), carrying no byte counts. -/
inductive IOErrorKind where
  | unexpectedEof : IOErrorKind
deriving DecidableEq, Repr

/-- `ChunkError` from src/chunk.rs.  `NonUTf8Characters` carries the rendered
message of the `Utf8Error` (an opaque string, not modelled); `ChecksumError`
carries nothing. -/
inductive ChunkError where
  | InvalidChunkData : IOErrorKind → ChunkError
  | NonUTf8Characters : ChunkError
  | BadChunkType : ChunkTypeError → ChunkError
  | ChecksumError : ChunkError
deriving DecidableEq, Repr

/-! ### CRC-32/ISO-HDLC

The Rust code delegates to the external `crc` crate with the
`CRC_32_ISO_HDLC` parameters named by the spec: polynomial `0x04C11DB7`
reflected (= `0xEDB88320`), initial value `0xFFFFFFFF`, final XOR
`0xFFFFFFFF`.  This is the standard reflected bitwise CRC-32; it reproduces
the checksum `2882656334` of the repository's own test vector. -/

def CRC_POLY : Nat := 0xEDB88320

/-- One reflected CRC shift step on the 32-bit register. -/
def crcShift (r : Nat) : Nat :=
  if r % 2 = 1 then (r / 2) ^^^ CRC_POLY else r / 2

/-- `n` iterated CRC shift steps. -/
def crcShifts : Nat → Nat → Nat
  | 0, r => r
  | n + 1, r => crcShifts n (crcShift r)

/-- Feed one byte into the CRC register: XOR it in, then shift 8 times. -/
def crcByte (r b : Nat) : Nat := crcShifts 8 (r ^^^ b)

/-- Feed a byte sequence into the CRC register. -/
def crcUpdate (r : Nat) (l : List Nat) : Nat := l.foldl crcByte r

/-- `Crc::<u32>::new(&CRC_32_ISO_HDLC).checksum`. -/
def checksum (l : List Nat) : Nat := crcUpdate 0xFFFFFFFF l ^^^ 0xFFFFFFFF

/-! ### Chunk -/

/-- `Chunk` from src/chunk.rs. -/
structure Chunk where
  chunk_type : ChunkType
  data : List Nat
  length : Nat
  crc : Nat
deriving DecidableEq, Repr

/-- `u32::to_be_bytes`: the 4 big-endian bytes of a 32-bit value. -/
def toBE4 (n : Nat) : List Nat :=
  [n / 2 ^ 24 % 256, n / 2 ^ 16 % 256, n / 2 ^ 8 % 256, n % 256]

/-- `u32::from_be_bytes` on a 4-byte buffer. -/
def fromBE (l : List Nat) : Nat := l.foldl (fun acc b => acc * 256 + b) 0

namespace Chunk

/-- `Chunk::new`: always succeeds; `length` is `data.len() as u32` (which
wraps modulo `2^32`), `crc` is the checksum of (type bytes ‖ data). -/
def new (chunk_type : ChunkType) (data : List Nat) : Chunk :=
  { chunk_type := chunk_type
    data := data
    length := data.length % 2 ^ 32
    crc := checksum (chunk_type.bytes ++ data) }

/-- `Chunk::as_bytes`: big-endian length, type bytes, data, big-endian crc. -/
def as_bytes (c : Chunk) : List Nat :=
  toBE4 c.length ++ c.chunk_type.bytes ++ c.data ++ toBE4 c.crc

theorem new_length (t : ChunkType) (d : List Nat) :
    (new t d).length = d.length % 2 ^ 32 := rfl

end Chunk

/-- `impl TryFrom<&[u8]> for Chunk` (src/chunk.rs): read a 4-byte big-endian
length, a 4-byte type (validated by `ChunkType::try_from`), `length` payload
bytes and a 4-byte big-endian crc from the front of the buffer — each
`read_exact` fails with `UnexpectedEof` if too few bytes remain — then
compare the stored crc with the checksum of (type bytes ‖ data).  Bytes after
the crc field are never read. -/
def decode (value : List Nat) : Except ChunkError Chunk :=
  if value.length < 4 then .error (.InvalidChunkData .unexpectedEof) else
  let length := fromBE (value.take 4)
  let rest1 := value.drop 4
  if rest1.length < 4 then .error (.InvalidChunkData .unexpectedEof) else
  match ChunkType.tryFromBytes (rest1.take 4) with
  | .error e => .error (.BadChunkType e)
  | .ok chunk_type =>
    let rest2 := rest1.drop 4
    if rest2.length < length then .error (.InvalidChunkData .unexpectedEof) else
    let data := rest2.take length
    let rest3 := rest2.drop length
    if rest3.length < 4 then .error (.InvalidChunkData .unexpectedEof) else
    let crc := fromBE (rest3.take 4)
    if crc ≠ checksum (chunk_type.bytes ++ data) then .error .ChecksumError
    else .ok { chunk_type := chunk_type, data := data, length := length, crc := crc }

/-! ### UTF-8 (modelling `std::str::from_utf8`)

`std::str::from_utf8` accepts exactly the well-formed UTF-8 encodings of
sequences of Unicode scalar values (RFC 3629): no overlong forms, no
surrogates, nothing above `0x10FFFF`.  The decoder below checks the decoded
value's range directly, which recognises exactly that set.  The `fuel`
argument is only a structural-termination device; it is always called with
`fuel ≥` the buffer length. -/

/-- A UTF-8 continuation byte: `0x80..=0xBF`. -/
def isCont (b : Nat) : Bool := 0x80 ≤ b && b < 0xC0

/-- A Unicode scalar value: below `0x110000` and not a surrogate. -/
def IsScalar (c : Nat) : Prop := c < 0x110000 ∧ ¬(0xD800 ≤ c ∧ c < 0xE000)

instance (c : Nat) : Decidable (IsScalar c) := by unfold IsScalar; infer_instance

/-- All characters of a text are Unicode scalar values. -/
def ValidText (cps : List Nat) : Prop := ∀ c ∈ cps, IsScalar c

instance (cps : List Nat) : Decidable (ValidText cps) := by
  unfold ValidText; infer_instance

/-- The standard UTF-8 encoding of one Unicode scalar value
(`char::encode_utf8`). -/
def encodeChar (c : Nat) : List Nat :=
  if c < 0x80 then [c]
  else if c < 0x800 then [0xC0 + c / 0x40, 0x80 + c % 0x40]
  else if c < 0x10000 then
    [0xE0 + c / 0x1000, 0x80 + c / 0x40 % 0x40, 0x80 + c % 0x40]
  else
    [0xF0 + c / 0x40000, 0x80 + c / 0x1000 % 0x40, 0x80 + c / 0x40 % 0x40,
      0x80 + c % 0x40]

/-- UTF-8 encoding of a text. -/
def utf8Encode : List Nat → List Nat
  | [] => []
  | c :: rest => encodeChar c ++ utf8Encode rest

/-- Fuelled UTF-8 decoder: returns the scalar values if the buffer is
well-formed UTF-8, `none` otherwise. -/
def utf8DecodeAux : Nat → List Nat → Option (List Nat)
  | _, [] => some []
  | 0, _ :: _ => none
  | fuel + 1, b :: rest =>
    if b < 0x80 then (utf8DecodeAux fuel rest).map (b :: ·)
    else if b < 0xC0 then none
    else if b < 0xE0 then
      match rest with
      | b1 :: rest1 =>
        if isCont b1 then
          let v := (b - 0xC0) * 0x40 + (b1 - 0x80)
          if 0x80 ≤ v then (utf8DecodeAux fuel rest1).map (v :: ·) else none
        else none
      | [] => none
    else if b < 0xF0 then
      match rest with
      | b1 :: b2 :: rest2 =>
        if isCont b1 && isCont b2 then
          let v := (b - 0xE0) * 0x1000 + (b1 - 0x80) * 0x40 + (b2 - 0x80)
          if 0x800 ≤ v && ! (0xD800 ≤ v && v < 0xE000) then
            (utf8DecodeAux fuel rest2).map (v :: ·)
          else none
        else none
      | _ => none
    else if b < 0xF8 then
      match rest with
      | b1 :: b2 :: b3 :: rest3 =>
        if isCont b1 && isCont b2 && isCont b3 then
          let v := (b - 0xF0) * 0x40000 + (b1 - 0x80) * 0x1000 +
            (b2 - 0x80) * 0x40 + (b3 - 0x80)
          if 0x10000 ≤ v && v < 0x110000 then
            (utf8DecodeAux fuel rest3).map (v :: ·)
          else none
        else none
      | _ => none
    else none

/-- `std::str::from_utf8` as a total function: `some` of the decoded scalar
values on well-formed UTF-8 input, `none` otherwise. -/
def utf8Decode (l : List Nat) : Option (List Nat) := utf8DecodeAux l.length l

/-- `impl TryFrom<Chunk> for String` via `std::str::from_utf8`: the text view
of the payload.  Text is modelled as the list of character scalar values. -/
def chunkText (c : Chunk) : Except ChunkError (List Nat) :=
  match utf8Decode c.data with
  | some cps => .ok cps
  | none => .error .NonUTf8Characters

end Pngme

namespace Pngme

/-! ### UTF-8 decoder correctness -/

theorem encodeChar_length_pos (c : Nat) : 0 < (encodeChar c).length := by
  rw [encodeChar]
  split
  · simp
  split
  · simp
  split
  · simp
  · simp

/-- Decoding an encoded text (with enough fuel) returns exactly that text. -/
theorem utf8DecodeAux_encode : ∀ (cps : List Nat) (fuel : Nat),
    ValidText cps → (utf8Encode cps).length ≤ fuel →
    utf8DecodeAux fuel (utf8Encode cps) = some cps := by
  intro cps
  induction cps with
  | nil =>
    intro fuel _ _
    cases fuel <;> rfl
  | cons c rest ih =>
    intro fuel hv hlen
    obtain ⟨hcu, hcs⟩ := hv c (.head _)
    have hvrest : ValidText rest := fun x hx => hv x (.tail _ hx)
    match fuel with
    | 0 =>
      exfalso
      have h1 := encodeChar_length_pos c
      rw [show utf8Encode (c :: rest) = encodeChar c ++ utf8Encode rest from rfl,
        List.length_append] at hlen
      omega
    | fuel + 1 =>
      rw [show utf8Encode (c :: rest) = encodeChar c ++ utf8Encode rest from rfl]
        at hlen ⊢
      by_cases h1 : c < 0x80
      · have he : encodeChar c = [c] := by rw [encodeChar, if_pos h1]
        rw [he, List.singleton_append] at hlen ⊢
        have hlen' : (utf8Encode rest).length ≤ fuel := by
          rw [List.length_cons] at hlen
          omega
        simp only [utf8DecodeAux]
        rw [if_pos h1, ih fuel hvrest hlen']
        rfl
      by_cases h2 : c < 0x800
      · have he : encodeChar c = [0xC0 + c / 0x40, 0x80 + c % 0x40] := by
          rw [encodeChar, if_neg h1, if_pos h2]
        rw [he, List.cons_append, List.cons_append, List.nil_append] at hlen ⊢
        have hlen' : (utf8Encode rest).length ≤ fuel := by
          simp only [List.length_cons] at hlen
          omega
        simp only [utf8DecodeAux]
        rw [if_neg (by omega), if_neg (by omega), if_pos (by omega),
          if_pos (by simp only [isCont, Bool.and_eq_true, decide_eq_true_eq]; omega),
          show (0xC0 + c / 0x40 - 0xC0) * 0x40 + (0x80 + c % 0x40 - 0x80) = c from
            by omega,
          if_pos (by omega : 0x80 ≤ c), ih fuel hvrest hlen']
        rfl
      by_cases h3 : c < 0x10000
      · have he : encodeChar c =
            [0xE0 + c / 0x1000, 0x80 + c / 0x40 % 0x40, 0x80 + c % 0x40] := by
          rw [encodeChar, if_neg h1, if_neg h2, if_pos h3]
        rw [he, List.cons_append, List.cons_append, List.cons_append,
          List.nil_append] at hlen ⊢
        have hlen' : (utf8Encode rest).length ≤ fuel := by
          simp only [List.length_cons] at hlen
          omega
        simp only [utf8DecodeAux]
        rw [if_neg (by omega), if_neg (by omega), if_neg (by omega),
          if_pos (by omega),
          if_pos (by
            simp only [isCont, Bool.and_eq_true, decide_eq_true_eq]
            refine ⟨⟨by omega, by omega⟩, by omega, by omega⟩),
          show (0xE0 + c / 0x1000 - 0xE0) * 0x1000 +
              (0x80 + c / 0x40 % 0x40 - 0x80) * 0x40 + (0x80 + c % 0x40 - 0x80) = c
            from by omega,
          if_pos (by
            simp only [Bool.and_eq_true, decide_eq_true_eq, Bool.not_eq_true',
              Bool.and_eq_false_iff, decide_eq_false_iff_not]
            omega),
          ih fuel hvrest hlen']
        rfl
      · have he : encodeChar c = [0xF0 + c / 0x40000, 0x80 + c / 0x1000 % 0x40,
            0x80 + c / 0x40 % 0x40, 0x80 + c % 0x40] := by
          rw [encodeChar, if_neg h1, if_neg h2, if_neg h3]
        rw [he, List.cons_append, List.cons_append, List.cons_append,
          List.cons_append, List.nil_append] at hlen ⊢
        have hlen' : (utf8Encode rest).length ≤ fuel := by
          simp only [List.length_cons] at hlen
          omega
        simp only [utf8DecodeAux]
        rw [if_neg (by omega), if_neg (by omega), if_neg (by omega),
          if_neg (by omega), if_pos (by omega),
          if_pos (by
            simp only [isCont, Bool.and_eq_true, decide_eq_true_eq]
            refine ⟨⟨⟨by omega, by omega⟩, by omega, by omega⟩, by omega, by omega⟩),
          show (0xF0 + c / 0x40000 - 0xF0) * 0x40000 +
              (0x80 + c / 0x1000 % 0x40 - 0x80) * 0x1000 +
              (0x80 + c / 0x40 % 0x40 - 0x80) * 0x40 + (0x80 + c % 0x40 - 0x80) = c
            from by omega,
          if_pos (by
            simp only [Bool.and_eq_true, decide_eq_true_eq]
            omega),
          ih fuel hvrest hlen']
        rfl

/-- A successful decode means the buffer is exactly the UTF-8 encoding of the
returned text, and that text consists of Unicode scalar values. -/
theorem utf8DecodeAux_sound : ∀ (fuel : Nat) (l cps : List Nat),
    utf8DecodeAux fuel l = some cps → ValidText cps ∧ l = utf8Encode cps := by
  intro fuel
  induction fuel with
  | zero =>
    intro l cps h
    cases l with
    | nil =>
      simp only [utf8DecodeAux, Option.some.injEq] at h
      subst h
      exact ⟨fun c hc => absurd hc (List.not_mem_nil c), rfl⟩
    | cons b rest =>
      simp only [utf8DecodeAux] at h
      exact absurd h (by simp)
  | succ fuel ih =>
    intro l cps h
    cases l with
    | nil =>
      simp only [utf8DecodeAux, Option.some.injEq] at h
      subst h
      exact ⟨fun c hc => absurd hc (List.not_mem_nil c), rfl⟩
    | cons b rest =>
      simp only [utf8DecodeAux] at h
      split at h
      · -- ASCII byte
        rename_i hb0
        rw [Option.map_eq_some'] at h
        obtain ⟨a, ha, rfl⟩ := h
        obtain ⟨hva, hra⟩ := ih rest a ha
        refine ⟨?_, ?_⟩
        · intro x hx
          rcases List.mem_cons.mp hx with rfl | hx'
          · exact ⟨by omega, by omega⟩
          · exact hva x hx'
        · rw [show utf8Encode (b :: a) = encodeChar b ++ utf8Encode a from rfl,
            encodeChar, if_pos hb0, List.singleton_append, hra]
      rename_i hb0
      split at h
      · exact absurd h (by simp)
      rename_i hb1
      split at h
      · -- 2-byte sequence
        rename_i hb2
        split at h
        · rename_i b1 rest1
          split at h
          · rename_i hcont
            split at h
            · rename_i hv80
              rw [Option.map_eq_some'] at h
              obtain ⟨a, ha, rfl⟩ := h
              obtain ⟨hva, hra⟩ := ih rest1 a ha
              simp only [isCont, Bool.and_eq_true, decide_eq_true_eq] at hcont
              refine ⟨?_, ?_⟩
              · intro x hx
                rcases List.mem_cons.mp hx with rfl | hx'
                · exact ⟨by omega, by omega⟩
                · exact hva x hx'
              · rw [show utf8Encode (((b - 0xC0) * 0x40 + (b1 - 0x80)) :: a) =
                    encodeChar ((b - 0xC0) * 0x40 + (b1 - 0x80)) ++ utf8Encode a
                    from rfl,
                  encodeChar, if_neg (by omega), if_pos (by omega), hra]
                simp only [List.cons_append, List.nil_append, List.cons.injEq]
                refine ⟨by omega, by omega, trivial⟩
            · exact absurd h (by simp)
          · exact absurd h (by simp)
        · exact absurd h (by simp)
      rename_i hb2
      split at h
      · -- 3-byte sequence
        rename_i hb3
        split at h
        · rename_i b1 b2 rest2
          split at h
          · rename_i hcont
            split at h
            · rename_i hrange
              rw [Option.map_eq_some'] at h
              obtain ⟨a, ha, rfl⟩ := h
              obtain ⟨hva, hra⟩ := ih rest2 a ha
              simp only [isCont, Bool.and_eq_true, decide_eq_true_eq] at hcont
              simp only [Bool.and_eq_true, decide_eq_true_eq, Bool.not_eq_true',
                Bool.and_eq_false_iff, decide_eq_false_iff_not] at hrange
              refine ⟨?_, ?_⟩
              · intro x hx
                rcases List.mem_cons.mp hx with rfl | hx'
                · exact ⟨by omega, by omega⟩
                · exact hva x hx'
              · rw [show utf8Encode (((b - 0xE0) * 0x1000 + (b1 - 0x80) * 0x40 +
                      (b2 - 0x80)) :: a) =
                    encodeChar ((b - 0xE0) * 0x1000 + (b1 - 0x80) * 0x40 +
                      (b2 - 0x80)) ++ utf8Encode a from rfl,
                  encodeChar, if_neg (by omega), if_neg (by omega),
                  if_pos (by omega), hra]
                simp only [List.cons_append, List.nil_append, List.cons.injEq]
                refine ⟨by omega, by omega, by omega, trivial⟩
            · exact absurd h (by simp)
          · exact absurd h (by simp)
        · exact absurd h (by simp)
      rename_i hb3
      split at h
      · -- 4-byte sequence
        rename_i hb4
        split at h
        · rename_i b1 b2 b3 rest3
          split at h
          · rename_i hcont
            split at h
            · rename_i hrange
              rw [Option.map_eq_some'] at h
              obtain ⟨a, ha, rfl⟩ := h
              obtain ⟨hva, hra⟩ := ih rest3 a ha
              simp only [isCont, Bool.and_eq_true, decide_eq_true_eq] at hcont
              simp only [Bool.and_eq_true, decide_eq_true_eq] at hrange
              refine ⟨?_, ?_⟩
              · intro x hx
                rcases List.mem_cons.mp hx with rfl | hx'
                · exact ⟨by omega, by omega⟩
                · exact hva x hx'
              · rw [show utf8Encode (((b - 0xF0) * 0x40000 + (b1 - 0x80) * 0x1000 +
                      (b2 - 0x80) * 0x40 + (b3 - 0x80)) :: a) =
                    encodeChar ((b - 0xF0) * 0x40000 + (b1 - 0x80) * 0x1000 +
                      (b2 - 0x80) * 0x40 + (b3 - 0x80)) ++ utf8Encode a from rfl,
                  encodeChar, if_neg (by omega), if_neg (by omega),
                  if_neg (by omega), hra]
                simp only [List.cons_append, List.nil_append, List.cons.injEq]
                refine ⟨by omega, by omega, by omega, by omega, trivial⟩
            · exact absurd h (by simp)
          · exact absurd h (by simp)
        · exact absurd h (by simp)
      · exact absurd h (by simp)

/-- The decoder succeeds exactly on the well-formed UTF-8 encodings of texts
of Unicode scalar values. -/
theorem utf8Decode_iff (l cps : List Nat) :
    utf8Decode l = some cps ↔ (ValidText cps ∧ l = utf8Encode cps) := by
  constructor
  · exact utf8DecodeAux_sound l.length l cps
  · rintro ⟨hv, rfl⟩
    exact utf8DecodeAux_encode cps _ hv le_rfl

/-! ### Test fixtures (the repository's own test data) -/

/-- The 42 UTF-8 bytes of `"This is where your secret message will be!"`. -/
def msgBytes : List Nat :=
  [84, 104, 105, 115, 32, 105, 115, 32, 119, 104, 101, 114, 101, 32, 121, 111,
   117, 114, 32, 115, 101, 99, 114, 101, 116, 32, 109, 101, 115, 115, 97, 103,
   101, 32, 119, 105, 108, 108, 32, 98, 101, 33]

/-- `testing_chunk_data` from the repository's tests: big-endian length 42,
type `"RuSt"`, the message bytes, big-endian crc `2882656334`. -/
def testingChunkData : List Nat :=
  toBE4 42 ++ [82, 117, 83, 116] ++ msgBytes ++ toBE4 2882656334

/-- The same buffer with stored crc `2882656333` (the repository's
`test_invalid_chunk_from_bytes` input). -/
def testingChunkDataBadCrc : List Nat :=
  toBE4 42 ++ [82, 117, 83, 116] ++ msgBytes ++ toBE4 2882656333

/-- The same buffer with stored crc `2882656332`. -/
def testingChunkDataBadCrc2 : List Nat :=
  toBE4 42 ++ [82, 117, 83, 116] ++ msgBytes ++ toBE4 2882656332

/-- `testingChunkData` with bit 6 of byte 4 (the first type byte, `R` =
`0x52`) flipped, turning the type byte into the non-alphabetic `0x12`. -/
def typeFlippedChunkData : List Nat :=
  testingChunkData.set 4 (testingChunkData.getD 4 0 ^^^ 2 ^ 6)

/-! ### Wellformedness -/

/-- A wellformed `ChunkType`: the code is 4 ASCII-alphabetic bytes.  Both
constructors (`tryFromBytes`, `fromStr`) only produce such values. -/
def ChunkType.WF (t : ChunkType) : Prop :=
  t.code.length = 4 ∧ ∀ b ∈ t.code, isAsciiAlphabetic b = true

instance (t : ChunkType) : Decidable t.WF := by unfold ChunkType.WF; infer_instance

/-- A wellformed `Chunk`: the invariants every `Chunk` produced by
`Chunk::new` (on a payload that fits the `u32` length field) or by a
successful parse satisfies. -/
def Chunk.WF (c : Chunk) : Prop :=
  c.chunk_type.WF ∧ c.data.length = c.length ∧ c.length < 2 ^ 32 ∧
    (∀ b ∈ c.data, b < 256) ∧ c.crc < 2 ^ 32 ∧
    c.crc = checksum (c.chunk_type.bytes ++ c.data)

instance (c : Chunk) : Decidable c.WF := by unfold Chunk.WF; infer_instance

/-! ### Byte-field lemmas -/

theorem toBE4_length (n : Nat) : (toBE4 n).length = 4 := rfl

theorem toBE4_lt (n : Nat) : ∀ b ∈ toBE4 n, b < 256 := by
  simp only [toBE4, List.mem_cons, List.not_mem_nil, or_false]
  rintro b (rfl | rfl | rfl | rfl) <;> omega

theorem fromBE_toBE4 (n : Nat) (h : n < 2 ^ 32) : fromBE (toBE4 n) = n := by
  simp only [fromBE, toBE4, List.foldl_cons, List.foldl_nil]
  norm_num
  omega

theorem toBE4_fromBE (l : List Nat) (hl : l.length = 4) (hb : ∀ b ∈ l, b < 256) :
    toBE4 (fromBE l) = l := by
  match l, hl with
  | [a, b, c, d], _ =>
    simp only [List.mem_cons, List.not_mem_nil, or_false, forall_eq_or_imp,
      forall_eq] at hb
    simp only [fromBE, toBE4, List.foldl_cons, List.foldl_nil]
    norm_num
    refine ⟨?_, ?_, ?_, ?_⟩ <;> omega

theorem fromBE_lt (l : List Nat) (hl : l.length = 4) (hb : ∀ b ∈ l, b < 256) :
    fromBE l < 2 ^ 32 := by
  match l, hl with
  | [a, b, c, d], _ =>
    simp only [List.mem_cons, List.not_mem_nil, or_false, forall_eq_or_imp,
      forall_eq] at hb
    simp only [fromBE, List.foldl_cons, List.foldl_nil]
    norm_num
    omega

theorem alpha_lt_256 (b : Nat) (h : isAsciiAlphabetic b = true) : b < 256 := by
  simp only [isAsciiAlphabetic, isAsciiUppercase, isAsciiLowercase,
    Bool.or_eq_true, Bool.and_eq_true, decide_eq_true_eq] at h
  omega

/-! ### CRC register lemmas

The CRC step functions are bijections on the 32-bit register space; hence a
change in the register — or in any later input byte — propagates to the final
checksum.  This is what makes the checksum sensitive to every single-bit
flip of its input. -/

theorem crcShift_lt (r : Nat) (h : r < 2 ^ 32) : crcShift r < 2 ^ 32 := by
  unfold crcShift
  split
  · exact Nat.xor_lt_two_pow (by omega) (by norm_num [CRC_POLY])
  · omega

theorem crcShift_inj (a b : Nat) (ha : a < 2 ^ 32) (hb : b < 2 ^ 32)
    (h : crcShift a = crcShift b) : a = b := by
  unfold crcShift at h
  have hP31 : CRC_POLY.testBit 31 = true := by decide
  split at h <;> split at h
  · rw [Nat.xor_left_inj] at h
    omega
  · exfalso
    have h31 : ((a / 2) ^^^ CRC_POLY).testBit 31 = true := by
      rw [Nat.testBit_xor, Nat.testBit_eq_false_of_lt (by omega : a / 2 < 2 ^ 31), hP31]
      rfl
    rw [h, Nat.testBit_eq_false_of_lt (by omega : b / 2 < 2 ^ 31)] at h31
    exact Bool.false_ne_true h31
  · exfalso
    have h31 : ((b / 2) ^^^ CRC_POLY).testBit 31 = true := by
      rw [Nat.testBit_xor, Nat.testBit_eq_false_of_lt (by omega : b / 2 < 2 ^ 31), hP31]
      rfl
    rw [← h, Nat.testBit_eq_false_of_lt (by omega : a / 2 < 2 ^ 31)] at h31
    exact Bool.false_ne_true h31
  · omega

theorem crcShifts_lt (n r : Nat) (h : r < 2 ^ 32) : crcShifts n r < 2 ^ 32 := by
  induction n generalizing r with
  | zero => exact h
  | succ n ih => exact ih _ (crcShift_lt r h)

theorem crcShifts_inj (n a b : Nat) (ha : a < 2 ^ 32) (hb : b < 2 ^ 32)
    (h : crcShifts n a = crcShifts n b) : a = b := by
  induction n generalizing a b with
  | zero => exact h
  | succ n ih =>
    exact crcShift_inj a b ha hb
      (ih _ _ (crcShift_lt a ha) (crcShift_lt b hb) h)

theorem crcByte_lt (r b : Nat) (hr : r < 2 ^ 32) (hb : b < 2 ^ 32) :
    crcByte r b < 2 ^ 32 :=
  crcShifts_lt 8 _ (Nat.xor_lt_two_pow hr hb)

theorem crcByte_reg_inj (b r1 r2 : Nat) (hb : b < 2 ^ 32) (h1 : r1 < 2 ^ 32)
    (h2 : r2 < 2 ^ 32) (h : crcByte r1 b = crcByte r2 b) : r1 = r2 := by
  have := crcShifts_inj 8 _ _ (Nat.xor_lt_two_pow h1 hb)
    (Nat.xor_lt_two_pow h2 hb) h
  exact Nat.xor_left_injective this

theorem crcByte_byte_inj (r b1 b2 : Nat) (hr : r < 2 ^ 32) (hb1 : b1 < 2 ^ 32)
    (hb2 : b2 < 2 ^ 32) (h : crcByte r b1 = crcByte r b2) : b1 = b2 := by
  have := crcShifts_inj 8 _ _ (Nat.xor_lt_two_pow hr hb1)
    (Nat.xor_lt_two_pow hr hb2) h
  exact Nat.xor_right_injective this

theorem crcUpdate_lt : ∀ (l : List Nat) (r : Nat), (∀ x ∈ l, x < 2 ^ 32) →
    r < 2 ^ 32 → crcUpdate r l < 2 ^ 32 := by
  intro l
  induction l with
  | nil => intro r _ hr; exact hr
  | cons b l ih =>
    intro r hl hr
    simp only [crcUpdate, List.foldl_cons] at *
    exact ih _ (fun x hx => hl x (.tail _ hx))
      (crcByte_lt r b hr (hl b (.head _)))

theorem crcUpdate_inj : ∀ (l : List Nat) (r1 r2 : Nat), (∀ x ∈ l, x < 2 ^ 32) →
    r1 < 2 ^ 32 → r2 < 2 ^ 32 → crcUpdate r1 l = crcUpdate r2 l → r1 = r2 := by
  intro l
  induction l with
  | nil => intro r1 r2 _ _ _ h; exact h
  | cons b l ih =>
    intro r1 r2 hl h1 h2 h
    simp only [crcUpdate, List.foldl_cons] at *
    have hb := hl b (.head _)
    exact crcByte_reg_inj b r1 r2 hb h1 h2
      (ih _ _ (fun x hx => hl x (.tail _ hx)) (crcByte_lt r1 b h1 hb)
        (crcByte_lt r2 b h2 hb) h)

theorem checksum_lt (l : List Nat) (hl : ∀ x ∈ l, x < 2 ^ 32) :
    checksum l < 2 ^ 32 :=
  Nat.xor_lt_two_pow (crcUpdate_lt l _ hl (by norm_num)) (by norm_num)

/-- Changing one byte of the input changes the CRC-32 checksum. -/
theorem checksum_flip (pre suf : List Nat) (b1 b2 : Nat)
    (hpre : ∀ x ∈ pre, x < 2 ^ 32) (hsuf : ∀ x ∈ suf, x < 2 ^ 32)
    (hb1 : b1 < 2 ^ 32) (hb2 : b2 < 2 ^ 32) (hne : b1 ≠ b2) :
    checksum (pre ++ b1 :: suf) ≠ checksum (pre ++ b2 :: suf) := by
  intro h
  unfold checksum crcUpdate at h
  rw [Nat.xor_left_inj] at h
  rw [List.foldl_append, List.foldl_append, List.foldl_cons, List.foldl_cons] at h
  set R := List.foldl crcByte 0xFFFFFFFF pre with hR
  have hRlt : R < 2 ^ 32 := crcUpdate_lt pre _ hpre (by norm_num)
  have h' : crcByte R b1 = crcByte R b2 :=
    crcUpdate_inj suf _ _ hsuf (crcByte_lt R b1 hRlt hb1)
      (crcByte_lt R b2 hRlt hb2) h
  exact hne (crcByte_byte_inj R b1 b2 hRlt hb1 hb2 h')

/-- Positional decomposition of a list around index `k`. -/
theorem list_getD_decomp : ∀ (m : List Nat) (k : Nat), k < m.length →
    m = m.take k ++ m.getD k 0 :: m.drop (k + 1) := by
  intro m
  induction m with
  | nil => intro k hk; simp at hk
  | cons a m ih =>
    intro k hk
    cases k with
    | zero => simp
    | succ k =>
      simp only [List.take_succ_cons, List.drop_succ_cons, List.getD_cons_succ,
        List.cons_append, List.cons.injEq, true_and]
      exact ih k (by simpa using hk)

/-- The element at a valid index (read with default 0) is a member. -/
theorem list_getD_mem : ∀ (m : List Nat) (k : Nat), k < m.length →
    m.getD k 0 ∈ m := by
  intro m
  induction m with
  | nil => intro k hk; simp at hk
  | cons a m ih =>
    intro k hk
    cases k with
    | zero => simp
    | succ k => exact .tail _ (ih k (by simpa using hk))

/-- `getD` past the first part of an append reads from the second part. -/
theorem list_getD_append_right (l1 l2 : List Nat) (n d : Nat)
    (h : l1.length ≤ n) : (l1 ++ l2).getD n d = l2.getD (n - l1.length) d := by
  simp [List.getD, List.getElem?_append_right h]

/-- `getD` within the first part of an append reads from the first part. -/
theorem list_getD_append_left (l1 l2 : List Nat) (n d : Nat)
    (h : n < l1.length) : (l1 ++ l2).getD n d = l1.getD n d := by
  simp [List.getD, List.getElem?_append_left h]

/-- `checksum` on a list with one position overwritten by a different value
differs from the original checksum. -/
theorem checksum_set_ne (m : List Nat) (k v : Nat) (hm : ∀ x ∈ m, x < 2 ^ 32)
    (hk : k < m.length) (hv : v < 2 ^ 32) (hne : v ≠ m.getD k 0) :
    checksum (m.set k v) ≠ checksum m := by
  have hdecomp := list_getD_decomp m k hk
  have hmem : m.getD k 0 ∈ m := list_getD_mem m k hk
  rw [List.set_eq_take_cons_drop _ hk]
  conv_rhs => rw [hdecomp]
  exact checksum_flip (m.take k) (m.drop (k + 1)) v (m.getD k 0)
    (fun x hx => hm x (List.mem_of_mem_take hx))
    (fun x hx => hm x (List.mem_of_mem_drop hx)) hv (hm _ hmem) hne

/-! ### Evaluating `decode` on a structured buffer -/

/-- `decode` on a buffer made of a 4-byte big-endian length `L`, a 4-byte
type field, `L` data bytes, a 4-byte big-endian stored checksum and
arbitrary trailing bytes: the trailing bytes are ignored, and the result is
determined by the type-field validity and the checksum comparison. -/
theorem decode_parts' (L : Nat) (tb data : List Nat) (w : Nat) (extra : List Nat)
    (htb : tb.length = 4) (hd : data.length = L) (hL : L < 2 ^ 32)
    (hw : w < 2 ^ 32) :
    decode (toBE4 L ++ tb ++ data ++ toBE4 w ++ extra) =
      if tb.any (fun x => ! isAsciiAlphabetic x) then
        .error (.BadChunkType .NonAlphabeticCharacters)
      else if w ≠ checksum (tb ++ data) then .error .ChecksumError
      else .ok ⟨⟨tb⟩, data, L, w⟩ := by
  have e0 : toBE4 L ++ tb ++ data ++ toBE4 w ++ extra =
      toBE4 L ++ (tb ++ (data ++ (toBE4 w ++ extra))) := by
    simp [List.append_assoc]
  rw [e0]
  have hlen4 : (toBE4 L).length = 4 := rfl
  have hwlen4 : (toBE4 w).length = 4 := rfl
  have h1 : (toBE4 L ++ (tb ++ (data ++ (toBE4 w ++ extra)))).take 4 = toBE4 L :=
    List.take_left' hlen4
  have h2 : (toBE4 L ++ (tb ++ (data ++ (toBE4 w ++ extra)))).drop 4 =
      tb ++ (data ++ (toBE4 w ++ extra)) := List.drop_left' hlen4
  have h3 : (tb ++ (data ++ (toBE4 w ++ extra))).take 4 = tb := List.take_left' htb
  have h4 : (tb ++ (data ++ (toBE4 w ++ extra))).drop 4 =
      data ++ (toBE4 w ++ extra) := List.drop_left' htb
  have h5 : (data ++ (toBE4 w ++ extra)).take L = data := List.take_left' hd
  have h6 : (data ++ (toBE4 w ++ extra)).drop L = toBE4 w ++ extra :=
    List.drop_left' hd
  have h7 : (toBE4 w ++ extra).take 4 = toBE4 w := List.take_left' hwlen4
  have hlenV : (toBE4 L ++ (tb ++ (data ++ (toBE4 w ++ extra)))).length =
      12 + L + extra.length := by
    simp [toBE4, htb, hd]
    omega
  have hlenR1 : (tb ++ (data ++ (toBE4 w ++ extra))).length =
      8 + L + extra.length := by
    simp [toBE4, htb, hd]
    omega
  have hlenR2 : (data ++ (toBE4 w ++ extra)).length = L + 4 + extra.length := by
    simp [toBE4, hd]
    omega
  have hlenR3 : (toBE4 w ++ extra).length = 4 + extra.length := by
    simp [toBE4]
    omega
  simp only [decode, h1, h2, h3, h4, hlenV, hlenR1, fromBE_toBE4 L hL]
  rw [if_neg (by omega : ¬ 12 + L + extra.length < 4),
      if_neg (by omega : ¬ 8 + L + extra.length < 4)]
  unfold ChunkType.tryFromBytes
  by_cases hA : tb.any (fun x => ! isAsciiAlphabetic x)
  · rw [if_pos hA, if_pos hA]
  · rw [if_neg hA, if_neg hA]
    simp only [h5, h6, hlenR2, hlenR3, h7, fromBE_toBE4 w hw]
    rw [if_neg (by omega : ¬ L + 4 + extra.length < L),
        if_neg (by omega : ¬ 4 + extra.length < 4)]
    simp only [ChunkType.bytes]

/-- `decode_parts'` with no trailing bytes. -/
theorem decode_parts (L : Nat) (tb data : List Nat) (w : Nat)
    (htb : tb.length = 4) (hd : data.length = L) (hL : L < 2 ^ 32)
    (hw : w < 2 ^ 32) :
    decode (toBE4 L ++ tb ++ data ++ toBE4 w) =
      if tb.any (fun x => ! isAsciiAlphabetic x) then
        .error (.BadChunkType .NonAlphabeticCharacters)
      else if w ≠ checksum (tb ++ data) then .error .ChecksumError
      else .ok ⟨⟨tb⟩, data, L, w⟩ := by
  have := decode_parts' L tb data w [] htb hd hL hw
  simpa using this

/-- Inversion: a successful `decode` yields a wellformed chunk, and the input
buffer starts with exactly that chunk's serialization (the parser reads
`12 + length` bytes and never looks further). -/
theorem decode_ok_spec (buf : List Nat) (c : Chunk) (hb : ∀ b ∈ buf, b < 256)
    (h : decode buf = .ok c) :
    c.WF ∧ buf = c.as_bytes ++ buf.drop (12 + c.length) := by
  simp only [decode] at h
  split at h
  · exact absurd h (by simp)
  rename_i hlen1
  split at h
  · exact absurd h (by simp)
  rename_i hlen2
  split at h
  · exact absurd h (by simp)
  rename_i t heq
  split at h
  · exact absurd h (by simp)
  rename_i hlen3
  split at h
  · exact absurd h (by simp)
  rename_i hlen4
  split at h
  · exact absurd h (by simp)
  rename_i hcrc
  rw [Except.ok.injEq] at h
  subst h
  -- name the pieces of the buffer
  have ht4 : (buf.take 4).length = 4 := by
    simp only [List.length_take]
    omega
  have hbt : ∀ b ∈ buf.take 4, b < 256 :=
    fun b hb' => hb b (List.mem_of_mem_take hb')
  have hLlt : fromBE (buf.take 4) < 2 ^ 32 := fromBE_lt _ ht4 hbt
  have hbuf4 : toBE4 (fromBE (buf.take 4)) = buf.take 4 := toBE4_fromBE _ ht4 hbt
  have htb4 : ((buf.drop 4).take 4).length = 4 := by
    simp only [List.length_take]
    omega
  -- the type field
  unfold ChunkType.tryFromBytes at heq
  split at heq
  · exact absurd heq (by simp)
  rename_i hA
  rw [Except.ok.injEq] at heq
  subst heq
  have halpha : ∀ b ∈ (buf.drop 4).take 4, isAsciiAlphabetic b = true := by
    simp only [Bool.not_eq_true] at hA
    intro b hb'
    have := List.any_eq_false.mp hA b hb'
    simpa using this
  have hdatlen : (((buf.drop 4).drop 4).take (fromBE (buf.take 4))).length =
      fromBE (buf.take 4) := by
    simp only [List.length_take]
    omega
  have hr3t4 : (((((buf.drop 4).drop 4).drop (fromBE (buf.take 4)))).take 4).length = 4 := by
    simp only [List.length_take]
    omega
  have hr3b : ∀ b ∈ ((((buf.drop 4).drop 4).drop (fromBE (buf.take 4)))).take 4, b < 256 :=
    fun b hb' => hb b (List.mem_of_mem_drop (List.mem_of_mem_drop
      (List.mem_of_mem_drop (List.mem_of_mem_take hb'))))
  have hwlt : fromBE (((((buf.drop 4).drop 4).drop (fromBE (buf.take 4)))).take 4) < 2 ^ 32 :=
    fromBE_lt _ hr3t4 hr3b
  have hw4 : toBE4 (fromBE (((((buf.drop 4).drop 4).drop (fromBE (buf.take 4)))).take 4)) =
      ((((buf.drop 4).drop 4).drop (fromBE (buf.take 4)))).take 4 :=
    toBE4_fromBE _ hr3t4 hr3b
  have hcrceq : fromBE (((((buf.drop 4).drop 4).drop (fromBE (buf.take 4)))).take 4) =
      checksum ((buf.drop 4).take 4 ++ ((buf.drop 4).drop 4).take (fromBE (buf.take 4))) := by
    by_contra hne
    exact hcrc hne
  refine ⟨⟨⟨htb4, halpha⟩, hdatlen, hLlt, ?_, hwlt, hcrceq⟩, ?_⟩
  · exact fun b hb' => hb b (List.mem_of_mem_drop (List.mem_of_mem_drop
      (List.mem_of_mem_take hb')))
  · -- buf = serialized chunk ++ trailing bytes
    simp only [Chunk.as_bytes, ChunkType.bytes]
    have hdrop12 : buf.drop (12 + fromBE (buf.take 4)) =
        ((((buf.drop 4).drop 4).drop (fromBE (buf.take 4)))).drop 4 := by
      rw [List.drop_drop, List.drop_drop, List.drop_drop]
      congr 1
      omega
    rw [hbuf4, hw4, hdrop12]
    symm
    calc buf.take 4 ++ (buf.drop 4).take 4 ++
          ((buf.drop 4).drop 4).take (fromBE (buf.take 4)) ++
          ((((buf.drop 4).drop 4).drop (fromBE (buf.take 4)))).take 4 ++
          ((((buf.drop 4).drop 4).drop (fromBE (buf.take 4)))).drop 4
        = buf.take 4 ++ ((buf.drop 4).take 4 ++
            (((buf.drop 4).drop 4).take (fromBE (buf.take 4)) ++
              (((buf.drop 4).drop 4).drop (fromBE (buf.take 4))))) := by
          simp [List.append_assoc, List.take_append_drop]
      _ = buf := by
          rw [List.take_append_drop, List.take_append_drop, List.take_append_drop]

/-! ### Claim theorems -/

/-- C6: decoding the buffer with big-endian length 42, type bytes `"RuSt"`,
the 42 UTF-8 bytes of `"This is where your secret message will be!"` and
big-endian checksum `2882656334` succeeds and yields a Chunk with checksum
`2882656334`; the otherwise identical buffer with stored checksum
`2882656333` fails with the checksum-mismatch error. -/
theorem C6_end_to_end_vector :
    (∃ c, decode testingChunkData = .ok c ∧ c.crc = 2882656334) ∧
    decode testingChunkDataBadCrc = .error .ChecksumError :=
  ⟨⟨⟨⟨[82, 117, 83, 116]⟩, msgBytes, 42, 2882656334⟩, by decide, rfl⟩, by decide⟩

/-- C2: TypeTag construction from a 4-byte array succeeds iff each of the 4
bytes lies in `0x41–0x5A` or `0x61–0x7A`; any byte outside these ranges makes
it fail with the non-alphabetic `InvalidType` error. -/
theorem C2_tryFromBytes_ranges (a b c d : Nat)
    (ha : a < 256) (hb : b < 256) (hc : c < 256) (hd : d < 256) :
    ((∃ t, ChunkType.tryFromBytes [a, b, c, d] = .ok t) ↔
      (((0x41 ≤ a ∧ a ≤ 0x5A) ∨ (0x61 ≤ a ∧ a ≤ 0x7A)) ∧
       ((0x41 ≤ b ∧ b ≤ 0x5A) ∨ (0x61 ≤ b ∧ b ≤ 0x7A)) ∧
       ((0x41 ≤ c ∧ c ≤ 0x5A) ∨ (0x61 ≤ c ∧ c ≤ 0x7A)) ∧
       ((0x41 ≤ d ∧ d ≤ 0x5A) ∨ (0x61 ≤ d ∧ d ≤ 0x7A)))) ∧
    (¬(((0x41 ≤ a ∧ a ≤ 0x5A) ∨ (0x61 ≤ a ∧ a ≤ 0x7A)) ∧
       ((0x41 ≤ b ∧ b ≤ 0x5A) ∨ (0x61 ≤ b ∧ b ≤ 0x7A)) ∧
       ((0x41 ≤ c ∧ c ≤ 0x5A) ∨ (0x61 ≤ c ∧ c ≤ 0x7A)) ∧
       ((0x41 ≤ d ∧ d ≤ 0x5A) ∨ (0x61 ≤ d ∧ d ≤ 0x7A))) →
      ChunkType.tryFromBytes [a, b, c, d] = .error .NonAlphabeticCharacters) := by
  have hiff : ([a, b, c, d].any (fun x => ! isAsciiAlphabetic x) = true) ↔
      ¬(((0x41 ≤ a ∧ a ≤ 0x5A) ∨ (0x61 ≤ a ∧ a ≤ 0x7A)) ∧
        ((0x41 ≤ b ∧ b ≤ 0x5A) ∨ (0x61 ≤ b ∧ b ≤ 0x7A)) ∧
        ((0x41 ≤ c ∧ c ≤ 0x5A) ∨ (0x61 ≤ c ∧ c ≤ 0x7A)) ∧
        ((0x41 ≤ d ∧ d ≤ 0x5A) ∨ (0x61 ≤ d ∧ d ≤ 0x7A))) := by
    simp [isAsciiAlphabetic, isAsciiUppercase, isAsciiLowercase]
    omega
  constructor
  · constructor
    · rintro ⟨t, ht⟩
      by_contra hr
      rw [ChunkType.tryFromBytes, if_pos (hiff.mpr hr)] at ht
      exact absurd ht (by simp)
    · intro hr
      refine ⟨⟨[a, b, c, d]⟩, ?_⟩
      rw [ChunkType.tryFromBytes, if_neg (fun hcond => (hiff.mp hcond) hr)]
  · intro hr
    rw [ChunkType.tryFromBytes, if_pos (hiff.mpr hr)]

theorem C2_tryFromBytes_ranges_witness :
    ChunkType.tryFromBytes [82, 117, 49, 116] = .error .NonAlphabeticCharacters :=
  (C2_tryFromBytes_ranges 82 117 49 116 (by decide) (by decide) (by decide)
    (by decide)).2 (by decide)

/-- C3 counterexample: `Chunk::new` stores `data.len() as u32`, which wraps;
for a payload of `2^32` zero bytes the stored length is `0`, not the byte
count of the payload. -/
theorem C3_counterexample :
    (Chunk.new ⟨[82, 117, 83, 116]⟩ (List.replicate (2 ^ 32) 0)).length ≠
      (List.replicate (2 ^ 32) 0).length := by
  rw [Chunk.new_length, List.length_replicate, Nat.mod_self]
  omega

/-- C3 (amended): for every TypeTag and every byte sequence `d` with fewer
than `2^32` bytes, `Chunk::new` succeeds with length = byte count of `d`,
payload = `d`, and checksum = CRC-32/ISO-HDLC of (type bytes ‖ `d`). -/
theorem C3_new_fields (t : ChunkType) (d : List Nat) (hd : d.length < 2 ^ 32) :
    (Chunk.new t d).length = d.length ∧ (Chunk.new t d).chunk_type = t ∧
      (Chunk.new t d).data = d ∧ (Chunk.new t d).crc = checksum (t.bytes ++ d) :=
  ⟨by rw [Chunk.new_length]; exact Nat.mod_eq_of_lt hd, rfl, rfl, rfl⟩

/-- For an all-ASCII-alphabetic string the UTF-8 byte length equals the
character count (each character is one byte). -/
theorem strByteLen_eq_length : ∀ s : List Nat,
    (∀ x ∈ s, isAsciiAlphabetic x = true) → ChunkType.strByteLen s = s.length := by
  intro s
  induction s with
  | nil => intro _; rfl
  | cons a s ih =>
    intro h
    have ha := h a (.head _)
    have h80 : a < 0x80 := by
      simp only [isAsciiAlphabetic, isAsciiUppercase, isAsciiLowercase,
        Bool.or_eq_true, Bool.and_eq_true, decide_eq_true_eq] at ha
      omega
    have h1 : ChunkType.utf8CharLen a = 1 := by
      unfold ChunkType.utf8CharLen
      rw [if_pos h80]
    simp only [ChunkType.strByteLen, List.map_cons, List.sum_cons, List.length_cons] at *
    rw [h1, ih (fun x hx => h x (.tail _ hx))]
    omega

/-- C5: `ChunkType` construction from text checks that every character is
ASCII alphabetic first (failing with the non-alphabetic error), and only
then that the string is 4 characters long (failing with the wrong-length
error); a string with both defects reports the non-alphabetic error. -/
theorem C5_fromStr_validation_order (s : List Nat) :
    ((∃ x ∈ s, isAsciiAlphabetic x = false) →
      ChunkType.fromStr s = .error .NonAlphabeticCharacters) ∧
    ((∀ x ∈ s, isAsciiAlphabetic x = true) → s.length ≠ 4 →
      ChunkType.fromStr s = .error (.InvalidStringLength s.length)) ∧
    ((∀ x ∈ s, isAsciiAlphabetic x = true) → s.length = 4 →
      ChunkType.fromStr s = .ok ⟨s⟩) := by
  refine ⟨?_, ?_, ?_⟩
  · rintro ⟨x, hx, hxf⟩
    rw [ChunkType.fromStr, if_pos (List.any_eq_true.mpr ⟨x, hx, by simp [hxf]⟩)]
  · intro hall hne
    have hcond : s.any (fun x => ! isAsciiAlphabetic x) = false :=
      List.any_eq_false.mpr (fun x hx => by simp [hall x hx])
    rw [ChunkType.fromStr, if_neg (by simp [hcond]),
      if_pos (by rw [strByteLen_eq_length s hall]; exact hne),
      strByteLen_eq_length s hall]
  · intro hall hlen
    have hcond : s.any (fun x => ! isAsciiAlphabetic x) = false :=
      List.any_eq_false.mpr (fun x hx => by simp [hall x hx])
    rw [ChunkType.fromStr, if_neg (by simp [hcond]),
      if_neg (by rw [strByteLen_eq_length s hall, hlen]; omega)]

theorem C5_fromStr_validation_order_witness :
    ChunkType.fromStr [82, 117, 49, 116, 120] = .error .NonAlphabeticCharacters :=
  (C5_fromStr_validation_order [82, 117, 49, 116, 120]).1
    ⟨49, by decide, by decide⟩

/-- C7: each property query of a TypeTag reads one byte's case — byte 0 for
critical, byte 1 for public, byte 2 for the reserved bit (which also decides
overall validity), byte 3 (lowercase) for safe-to-copy — and the `"RuSt"` /
`"Rust"` tags evaluate as the spec's table states. -/
theorem C7_property_bits :
    (∀ (t : ChunkType) (a b c d : Nat), t.code = [a, b, c, d] →
      t.is_critical = isAsciiUppercase a ∧
      t.is_public = isAsciiUppercase b ∧
      t.is_reserved_bit_valid = isAsciiUppercase c ∧
      t.is_safe_to_copy = isAsciiLowercase d ∧
      t.is_valid = t.is_reserved_bit_valid) ∧
    (∃ tR, ChunkType.fromStr [82, 117, 83, 116] = .ok tR ∧
      tR.is_critical = true ∧ tR.is_public = false ∧
      tR.is_reserved_bit_valid = true ∧ tR.is_safe_to_copy = true ∧
      tR.is_valid = true) ∧
    (∃ tr, ChunkType.fromStr [82, 117, 115, 116] = .ok tr ∧
      tr.is_reserved_bit_valid = false ∧ tr.is_valid = false) := by
  refine ⟨?_, ⟨⟨[82, 117, 83, 116]⟩, by decide, by decide, by decide, by decide,
    by decide, by decide⟩, ⟨⟨[82, 117, 115, 116]⟩, by decide, by decide, by decide⟩⟩
  rintro ⟨code⟩ a b c d hcode
  cases hcode
  exact ⟨rfl, rfl, rfl, rfl, rfl⟩

theorem C7_property_bits_witness :
    ChunkType.is_critical ⟨[65, 98, 67, 100]⟩ = isAsciiUppercase 65 ∧
    ChunkType.is_public ⟨[65, 98, 67, 100]⟩ = isAsciiUppercase 98 ∧
    ChunkType.is_reserved_bit_valid ⟨[65, 98, 67, 100]⟩ = isAsciiUppercase 67 ∧
    ChunkType.is_safe_to_copy ⟨[65, 98, 67, 100]⟩ = isAsciiLowercase 100 ∧
    ChunkType.is_valid ⟨[65, 98, 67, 100]⟩ =
      ChunkType.is_reserved_bit_valid ⟨[65, 98, 67, 100]⟩ :=
  C7_property_bits.1 ⟨[65, 98, 67, 100]⟩ 65 98 67 100 rfl

/-- C9 counterexample: two buffers whose stored checksum fields differ
(`2882656333` vs `2882656332`) produce literally equal `ChecksumError`
values — the checksum-mismatch error value carries neither the stored nor
the recomputed checksum. -/
theorem C9_counterexample :
    decode testingChunkDataBadCrc = decode testingChunkDataBadCrc2 ∧
    fromBE (testingChunkDataBadCrc.drop 50) ≠
      fromBE (testingChunkDataBadCrc2.drop 50) :=
  ⟨by decide, by decide⟩

/-- C9 (amended): the wrong-length `InvalidType` error carries the actual
length found; the checksum-mismatch error is a constant carrying no values
(all checksum failures yield the same error), and the truncation and
non-alphabetic errors likewise carry no byte counts. -/
theorem C9_error_detail :
    (∀ s : List Nat, (∀ x ∈ s, isAsciiAlphabetic x = true) →
      ChunkType.strByteLen s ≠ 4 →
      ChunkType.fromStr s = .error (.InvalidStringLength (ChunkType.strByteLen s))) ∧
    (∀ v1 v2 : List Nat, decode v1 = .error .ChecksumError →
      decode v2 = .error .ChecksumError → decode v1 = decode v2) := by
  constructor
  · intro s hall hne
    have hcond : s.any (fun x => ! isAsciiAlphabetic x) = false :=
      List.any_eq_false.mpr (fun x hx => by simp [hall x hx])
    rw [ChunkType.fromStr, if_neg (by simp [hcond]), if_pos hne]
  · intro v1 v2 h1 h2
    rw [h1, h2]

theorem C9_error_detail_witness :
    ChunkType.fromStr [65, 66, 67] =
      .error (.InvalidStringLength (ChunkType.strByteLen [65, 66, 67])) :=
  C9_error_detail.1 [65, 66, 67] (by decide) (by decide)

theorem C3_new_fields_witness :
    (Chunk.new ⟨[82, 117, 83, 116]⟩ []).length = ([] : List Nat).length ∧
    (Chunk.new ⟨[82, 117, 83, 116]⟩ []).chunk_type = ⟨[82, 117, 83, 116]⟩ ∧
    (Chunk.new ⟨[82, 117, 83, 116]⟩ []).data = [] ∧
    (Chunk.new ⟨[82, 117, 83, 116]⟩ []).crc =
      checksum (ChunkType.bytes ⟨[82, 117, 83, 116]⟩ ++ []) :=
  C3_new_fields ⟨[82, 117, 83, 116]⟩ [] (by decide)

/-- Decoding the serialization of any wellformed chunk gives back exactly
that chunk. -/
theorem decode_as_bytes_of_wf (c : Chunk) (hwf : c.WF) :
    decode c.as_bytes = .ok c := by
  obtain ⟨⟨hcl, hca⟩, hdl, hLlt, hdb, hclt, hcrc⟩ := hwf
  rw [Chunk.as_bytes,
    decode_parts c.length c.chunk_type.bytes c.data c.crc hcl hdl hLlt hclt]
  have hA : (c.chunk_type.bytes.any fun x => ! isAsciiAlphabetic x) = false :=
    List.any_eq_false.mpr (fun x hx => by simp [hca x hx])
  rw [if_neg (by simp [hA]), if_neg (fun hne => hne hcrc)]
  rfl

/-- Every chunk built by `Chunk::new` from a wellformed TypeTag and a payload
that fits the `u32` length field is wellformed. -/
theorem new_wf (t : ChunkType) (d : List Nat) (htwf : t.WF)
    (hdb : ∀ b ∈ d, b < 256) (hlen : d.length < 2 ^ 32) : (Chunk.new t d).WF := by
  obtain ⟨hcl, hca⟩ := htwf
  refine ⟨⟨hcl, hca⟩, ?_, ?_, hdb, ?_, rfl⟩
  · rw [Chunk.new_length]
    exact (Nat.mod_eq_of_lt hlen).symm
  · rw [Chunk.new_length]
    exact Nat.lt_of_le_of_lt (Nat.mod_le _ _) hlen
  · exact checksum_lt _ (by
      intro x hx
      rcases List.mem_append.mp hx with h | h
      · exact Nat.lt_trans (alpha_lt_256 x (hca x h)) (by norm_num)
      · exact Nat.lt_trans (hdb x h) (by norm_num))

/-- C1: parsing the serialization of a valid Chunk — built by `Chunk::new`
from a valid TypeTag and payload, or obtained from a successful parse —
succeeds and returns a Chunk with the same length, type bytes, payload and
checksum (the very same Chunk value). -/
theorem C1_serialize_parse_roundtrip :
    (∀ (t : ChunkType) (d : List Nat), t.WF → (∀ b ∈ d, b < 256) →
      d.length < 2 ^ 32 →
      decode ((Chunk.new t d).as_bytes) = .ok (Chunk.new t d)) ∧
    (∀ (buf : List Nat) (c : Chunk), (∀ b ∈ buf, b < 256) →
      decode buf = .ok c → decode c.as_bytes = .ok c) := by
  constructor
  · intro t d htwf hdb hlen
    exact decode_as_bytes_of_wf _ (new_wf t d htwf hdb hlen)
  · intro buf c hb h
    exact decode_as_bytes_of_wf c (decode_ok_spec buf c hb h).1

theorem C1_serialize_parse_roundtrip_witness :
    decode ((Chunk.new ⟨[82, 117, 83, 116]⟩ [1, 2, 3]).as_bytes) =
      .ok (Chunk.new ⟨[82, 117, 83, 116]⟩ [1, 2, 3]) :=
  C1_serialize_parse_roundtrip.1 ⟨[82, 117, 83, 116]⟩ [1, 2, 3] (by decide)
    (by decide) (by decide)

/-- C10: a buffer that begins with a well-formed chunk record decodes to the
same Chunk regardless of any trailing bytes after the checksum field — the
parser reads exactly `12 + length` bytes and ignores the rest. -/
theorem C10_trailing_bytes_ignored (buf extra : List Nat) (c : Chunk)
    (hb : ∀ b ∈ buf, b < 256) (h : decode buf = .ok c) :
    decode (buf ++ extra) = .ok c := by
  obtain ⟨hwf, hdecomp⟩ := decode_ok_spec buf c hb h
  obtain ⟨⟨hcl, hca⟩, hdl, hLlt, hdb, hclt, hcrc⟩ := hwf
  have e : buf ++ extra = toBE4 c.length ++ c.chunk_type.bytes ++ c.data ++
      toBE4 c.crc ++ (buf.drop (12 + c.length) ++ extra) := by
    conv_lhs => rw [hdecomp]
    rw [Chunk.as_bytes]
    simp [List.append_assoc]
  rw [e, decode_parts' c.length c.chunk_type.bytes c.data c.crc _ hcl hdl hLlt hclt]
  have hA : (c.chunk_type.bytes.any fun x => ! isAsciiAlphabetic x) = false :=
    List.any_eq_false.mpr (fun x hx => by simp [hca x hx])
  rw [if_neg (by simp [hA]), if_neg (fun hne => hne hcrc)]
  rfl

/-- C4 counterexample: flipping bit 6 of byte 4 (the first type byte) of the
valid encoded test chunk turns `R` (`0x52`) into the non-alphabetic `0x12`,
and decoding then fails with the `InvalidType` error, not `ChecksumMismatch`. -/
theorem C4_counterexample :
    typeFlippedChunkData =
      testingChunkData.set 4 (testingChunkData.getD 4 0 ^^^ 2 ^ 6) ∧
    (∃ c, decode testingChunkData = .ok c) ∧
    decode typeFlippedChunkData = .error (.BadChunkType .NonAlphabeticCharacters) ∧
    decode typeFlippedChunkData ≠ .error .ChecksumError :=
  ⟨rfl, ⟨⟨⟨[82, 117, 83, 116]⟩, msgBytes, 42, 2882656334⟩, by decide⟩,
    by decide, by decide⟩

/-- C4 (amended): flipping any single bit within the (type ‖ payload) span of
a valid encoded chunk makes decoding fail — with `ChecksumMismatch` whenever
the 4 type bytes of the modified buffer are still all alphabetic (in
particular for every flip inside the payload span), and with the
non-alphabetic `InvalidType` error when the flip makes a type byte
non-alphabetic. -/
theorem C4_bitflip_checksum (c : Chunk) (hwf : c.WF) (i j : Nat) (hi4 : 4 ≤ i)
    (hi : i < 8 + c.data.length) (hj : j < 8) :
    ((((c.as_bytes.set i (c.as_bytes.getD i 0 ^^^ 2 ^ j)).drop 4).take 4).all
        isAsciiAlphabetic = true →
      decode (c.as_bytes.set i (c.as_bytes.getD i 0 ^^^ 2 ^ j)) =
        .error .ChecksumError) ∧
    ((((c.as_bytes.set i (c.as_bytes.getD i 0 ^^^ 2 ^ j)).drop 4).take 4).all
        isAsciiAlphabetic = false →
      decode (c.as_bytes.set i (c.as_bytes.getD i 0 ^^^ 2 ^ j)) =
        .error (.BadChunkType .NonAlphabeticCharacters)) := by
  obtain ⟨⟨hcl, hca⟩, hdl, hLlt, hdb, hclt, hcrc⟩ := hwf
  have hmlen : (c.chunk_type.bytes ++ c.data).length = 4 + c.data.length := by
    simp only [List.length_append, ChunkType.bytes, hcl]
  have hmb : ∀ x ∈ c.chunk_type.bytes ++ c.data, x < 256 := by
    intro x hx
    rcases List.mem_append.mp hx with h | h
    · exact alpha_lt_256 x (hca x h)
    · exact hdb x h
  have habytes : c.as_bytes =
      toBE4 c.length ++ ((c.chunk_type.bytes ++ c.data) ++ toBE4 c.crc) := by
    rw [Chunk.as_bytes]
    simp [List.append_assoc]
  have hi' : i - 4 < (c.chunk_type.bytes ++ c.data).length := by
    rw [hmlen]
    omega
  have hgetD : c.as_bytes.getD i 0 =
      (c.chunk_type.bytes ++ c.data).getD (i - 4) 0 := by
    rw [habytes, list_getD_append_right _ _ _ _ (by rw [toBE4_length]; omega),
      toBE4_length, list_getD_append_left _ _ _ _ hi']
  have hbv : (c.chunk_type.bytes ++ c.data).getD (i - 4) 0 < 256 :=
    hmb _ (list_getD_mem _ _ hi')
  have h2j : (2 : Nat) ^ j < 256 := by
    calc (2 : Nat) ^ j < 2 ^ 8 := Nat.pow_lt_pow_right Nat.one_lt_two hj
      _ = 256 := by norm_num
  have hvlt : (c.chunk_type.bytes ++ c.data).getD (i - 4) 0 ^^^ 2 ^ j < 256 := by
    have : (c.chunk_type.bytes ++ c.data).getD (i - 4) 0 ^^^ 2 ^ j < 2 ^ 8 :=
      Nat.xor_lt_two_pow (by norm_num at hbv ⊢; omega) (by norm_num at h2j ⊢; omega)
    norm_num at this ⊢
    omega
  have hvne : (c.chunk_type.bytes ++ c.data).getD (i - 4) 0 ^^^ 2 ^ j ≠
      (c.chunk_type.bytes ++ c.data).getD (i - 4) 0 := by
    intro heq
    have h0 : (2 : Nat) ^ j = 0 :=
      Nat.xor_right_inj.mp (by rw [Nat.xor_zero]; exact heq)
    exact (Nat.pow_pos (show 0 < 2 by norm_num) (n := j)).ne' h0
  have hset : c.as_bytes.set i (c.as_bytes.getD i 0 ^^^ 2 ^ j) =
      toBE4 c.length ++
        (((c.chunk_type.bytes ++ c.data).set (i - 4)
          ((c.chunk_type.bytes ++ c.data).getD (i - 4) 0 ^^^ 2 ^ j)) ++
            toBE4 c.crc) := by
    rw [hgetD, habytes,
      List.set_append_right _ _ (by rw [toBE4_length]; omega), toBE4_length,
      List.set_append_left _ _ hi']
  set m' := (c.chunk_type.bytes ++ c.data).set (i - 4)
    ((c.chunk_type.bytes ++ c.data).getD (i - 4) 0 ^^^ 2 ^ j) with hm'
  have hm'len : m'.length = 4 + c.data.length := by
    rw [hm', List.length_set, hmlen]
  have ht4 : (m'.take 4).length = 4 := by
    rw [List.length_take, hm'len]
    omega
  have hd4 : (m'.drop 4).length = c.length := by
    rw [List.length_drop, hm'len]
    omega
  have hregroup : toBE4 c.length ++ (m' ++ toBE4 c.crc) =
      toBE4 c.length ++ m'.take 4 ++ m'.drop 4 ++ toBE4 c.crc := by
    simp only [List.append_assoc]
    rw [← List.append_assoc (m'.take 4), List.take_append_drop]
  have hcs : checksum m' ≠ checksum (c.chunk_type.bytes ++ c.data) :=
    checksum_set_ne _ _ _
      (fun x hx => Nat.lt_trans (hmb x hx) (by norm_num)) hi'
      (Nat.lt_trans hvlt (by norm_num)) hvne
  rw [hset, List.drop_left' (toBE4_length c.length),
    List.take_append_of_le_length (by rw [hm'len]; omega : (4 : Nat) ≤ m'.length),
    hregroup,
    decode_parts c.length (m'.take 4) (m'.drop 4) c.crc ht4 hd4 hLlt hclt]
  constructor
  · intro hall
    have hA : (m'.take 4).any (fun x => ! isAsciiAlphabetic x) = false := by
      rw [List.any_eq_false]
      intro x hx
      simp [List.all_eq_true.mp hall x hx]
    rw [if_neg (by simp [hA]), if_pos]
    rw [List.take_append_drop, hcrc]
    exact fun heq => hcs heq.symm
  · intro hnall
    have hA : (m'.take 4).any (fun x => ! isAsciiAlphabetic x) = true := by
      rw [List.any_eq_true]
      obtain ⟨x, hx, hxf⟩ := List.all_eq_false.mp hnall
      exact ⟨x, hx, by simp [hxf]⟩
    rw [if_pos hA]

theorem C4_bitflip_checksum_witness :
    decode ((Chunk.new ⟨[82, 117, 83, 116]⟩ []).as_bytes.set 4
      ((Chunk.new ⟨[82, 117, 83, 116]⟩ []).as_bytes.getD 4 0 ^^^ 2 ^ 0)) =
      .error .ChecksumError :=
  (C4_bitflip_checksum (Chunk.new ⟨[82, 117, 83, 116]⟩ []) (by decide) 4 0
    (by decide) (by decide) (by decide)).1 (by decide)

/-- C8: the payload-as-text view returns exactly the text whose UTF-8
encoding is the payload when the payload is valid UTF-8, and fails with the
`NonTextPayload` error when the payload is the encoding of no text — it
never fails on a valid-UTF-8 payload and never succeeds on an invalid one. -/
theorem C8_text_view (c : Chunk) :
    (∀ cps, ValidText cps → c.data = utf8Encode cps → chunkText c = .ok cps) ∧
    ((∀ cps, ValidText cps → c.data ≠ utf8Encode cps) →
      chunkText c = .error .NonUTf8Characters) := by
  constructor
  · intro cps hv he
    simp only [chunkText]
    rw [(utf8Decode_iff c.data cps).mpr ⟨hv, he⟩]
  · intro hne
    rcases hd : utf8Decode c.data with _ | cps
    · simp only [chunkText, hd]
    · obtain ⟨hv, he⟩ := (utf8Decode_iff _ _).mp hd
      exact absurd he (hne cps hv)

theorem C8_text_view_witness :
    chunkText ⟨⟨[82, 117, 83, 116]⟩, [72, 105], 2, 0⟩ = .ok [72, 105] ∧
    chunkText ⟨⟨[82, 117, 83, 116]⟩, [128], 1, 0⟩ =
      .error .NonUTf8Characters :=
  ⟨(C8_text_view _).1 [72, 105] (by decide) (by decide),
   (C8_text_view _).2 (fun cps hv he => by
    have h1 := (utf8Decode_iff [128] cps).mpr ⟨hv, he⟩
    rw [show utf8Decode [128] = none from by decide] at h1
    exact absurd h1 (by simp))⟩

theorem C10_trailing_bytes_ignored_witness :
    decode (testingChunkData ++ [0, 1, 2]) =
      .ok ⟨⟨[82, 117, 83, 116]⟩, msgBytes, 42, 2882656334⟩ :=
  C10_trailing_bytes_ignored testingChunkData [0, 1, 2]
    ⟨⟨[82, 117, 83, 116]⟩, msgBytes, 42, 2882656334⟩ (by decide) (by decide)

end Pngme
